import Mathlib

/-
  Verification of the DA_Framework pipeline library.

  Shallow embedding of the Python sources:
    afiniti_da/multiprocessing_breaker.py
    afiniti_da/threading_smooth_rate_limiter.py
    afiniti_da/threading_bounded_executor.py
    afiniti_da/threading_accumulator.py
    afiniti_da/multiprocessing_threading_work_queue.py

  Time is modelled by the rationals (exact arithmetic for the monotonic
  clock); `time.sleep(d)` is modelled as advancing the clock by exactly `d`.
  The cross-process `multiprocessing.Event` and the one-slot
  `multiprocessing.Queue(maxsize=1)` are modelled by a shared record; the
  per-process attributes `_cached` / `_checked` of the breaker are modelled
  by a separate local record, since after `fork` each process holds its own
  divergent copy of those plain attributes.
-/

namespace DAFramework

/-! ## Queue primitives (non-blocking put/get on a one-slot queue) -/

/-- Exception `queue.Full` raised by `Queue.put(block=False)` on a full queue. -/
inductive QueueFull : Type where
  | full
deriving DecidableEq, Repr

/-- Exception `queue.Empty` raised by `Queue.get(block=False)` on an empty queue. -/
inductive QueueEmpty : Type where
  | empty
deriving DecidableEq, Repr

/-- `Queue(maxsize=1).put(obj, block=False)`: succeeds iff the slot is empty. -/
def queuePutNowait {α : Type} (slot : Option α) (x : α) : Except QueueFull (Option α) :=
  match slot with
  | none => .ok (some x)
  | some _ => .error .full

/-- `Queue(maxsize=1).get(block=False)`: returns and removes the element,
raises `queue.Empty` if the slot is empty. -/
def queueGetNowait {α : Type} (slot : Option α) : Except QueueEmpty (α × Option α) :=
  match slot with
  | some x => .ok (x, none)
  | none => .error .empty

/-! ## MultiprocessingBreaker (multiprocessing_breaker.py)

State shared between processes: the `multiprocessing.Event` (`_event`) and
the one-slot reason queue (`_reason`).  Per-process state: `_cached` and
`_checked`. -/

/-- Cross-process part of `MultiprocessingBreaker`: `_event` and `_reason`. -/
structure BreakerShared (α : Type) where
  eventSet : Bool
  reasonSlot : Option α
deriving DecidableEq, Repr

/-- Per-process part of `MultiprocessingBreaker`: `_cached` and `_checked`. -/
structure BreakerLocal : Type where
  cached : Bool
  checked : ℚ
deriving DecidableEq, Repr

/-- Shared state right after `MultiprocessingBreaker.__init__`. -/
def initialShared (α : Type) : BreakerShared α :=
  { eventSet := false, reasonSlot := none }

/-- Per-process state right after `__init__` executed at time `t0`
(`_cached = False`, `_checked = time.monotonic()`). -/
def initialLocal (t0 : ℚ) : BreakerLocal :=
  { cached := false, checked := t0 }

/-- `MultiprocessingBreaker.trip(reason)` with the `try`/`except queue.Full`
made explicit: the body puts the reason, sets the event and the cache; a
`queue.Full` from the put aborts the body (skipping `_event.set()` and
`self._cached = True`) and is swallowed by the `except` clause, so the result
is always `Except.ok`. -/
def tripE {α : Type} (sh : BreakerShared α) (lo : BreakerLocal) (reason : α) :
    Except QueueFull (BreakerShared α × BreakerLocal) :=
  match queuePutNowait sh.reasonSlot reason with
  | .ok slot =>
      .ok ({ eventSet := true, reasonSlot := slot }, { lo with cached := true })
  | .error _ =>
      .ok (sh, lo)

/-- State transformer of `trip` (which never raises, see `tripE`). -/
def trip {α : Type} (sh : BreakerShared α) (lo : BreakerLocal) (reason : α) :
    BreakerShared α × BreakerLocal :=
  match tripE sh lo reason with
  | .ok p => p
  | .error _ => (sh, lo)

/-- Effect of a `trip` performed by another process: that process's own
`_cached`/`_checked` copy diverges after fork, so only the shared part of the
state is affected here. -/
def tripShared {α : Type} (sh : BreakerShared α) (reason : α) : BreakerShared α :=
  (trip sh { cached := false, checked := 0 } reason).1

/-- `MultiprocessingBreaker.is_tripped(granularity=None)`.  `defG` is the
constructor `_granularity`; `g` the optional per-call override; `now` is the
`time.monotonic()` read in the condition and `nowAfter` the second
`time.monotonic()` stored into `_checked` on a refresh.  Returns the boolean
result together with the updated per-process state. -/
def is_tripped {α : Type} (sh : BreakerShared α) (lo : BreakerLocal) (defG : ℚ)
    (g : Option ℚ) (now nowAfter : ℚ) : Bool × BreakerLocal :=
  let useG := g.getD defG
  if useG ≤ 0 ∨ now - lo.checked ≥ useG then
    (sh.eventSet, { cached := sh.eventSet, checked := nowAfter })
  else
    (lo.cached, lo)

/-- `MultiprocessingBreaker.consume_reason()`: `self._reason.get(block=False)`,
raising `queue.Empty` when the slot is empty. -/
def consume_reason {α : Type} (sh : BreakerShared α) :
    Except QueueEmpty (α × BreakerShared α) :=
  match queueGetNowait sh.reasonSlot with
  | .ok (r, slot) => .ok (r, { sh with reasonSlot := slot })
  | .error e => .error e

/-- A step of a breaker history, seen from one fixed process: a `trip` by this
process, a `trip` by some other process (shared effect only), or an
`is_tripped` poll by this process. -/
inductive BreakerOp (α : Type) where
  | tripLocal (reason : α)
  | tripRemote (reason : α)
  | check (g : Option ℚ) (now nowAfter : ℚ)

/-- One step of a breaker history; returns the new state and the output of an
`is_tripped` call when the op is a poll. -/
def breakerStep {α : Type} (defG : ℚ) (s : BreakerShared α × BreakerLocal) :
    BreakerOp α → (BreakerShared α × BreakerLocal) × Option Bool
  | .tripLocal r => (trip s.1 s.2 r, none)
  | .tripRemote r => ((tripShared s.1 r, s.2), none)
  | .check g now nowAfter =>
      let (b, lo') := is_tripped s.1 s.2 defG g now nowAfter
      ((s.1, lo'), some b)

/-- Run a breaker history, collecting the results of the `is_tripped` calls. -/
def breakerRun {α : Type} (defG : ℚ) (s : BreakerShared α × BreakerLocal) :
    List (BreakerOp α) → (BreakerShared α × BreakerLocal) × List Bool
  | [] => (s, [])
  | op :: ops =>
      let (s', out) := breakerStep defG s op
      let (s'', outs) := breakerRun defG s' ops
      (s'', out.toList ++ outs)

/-- Checks that a list of booleans is monotone: once `true` appears, every
later entry is `true`. -/
def monoOk : List Bool → Bool
  | [] => true
  | b :: rest => if b then rest.all (fun x => x = true) else monoOk rest

/-- Apply `trip` for each reason in the list in order, starting from the given
state (all trips from the same process). -/
def applyTrips {α : Type} (sh : BreakerShared α) (lo : BreakerLocal) :
    List α → BreakerShared α × BreakerLocal
  | [] => (sh, lo)
  | r :: rs =>
      let (sh', lo') := trip sh lo r
      applyTrips sh' lo' rs

/-! ## ThreadingSmoothRateLimiter (threading_smooth_rate_limiter.py)

The whole body of `wait()` runs under `self._lock`, so calls are serialized;
we model one call as a function of the state at entry and the entry time
(`entry_time = time.monotonic()`).  `time.sleep(remaining)` is modelled as
advancing the clock by exactly `remaining`, so the call returns at
`entry_time + slept`. -/

/-- Mutable state of `ThreadingSmoothRateLimiter`: `_last_time`,
`_last_report`, `_report_count` (`_delay` and `_report_interval_seconds` are
fixed at construction and passed separately). -/
structure RateState : Type where
  lastTime : ℚ
  lastReport : ℚ
  reportCount : ℕ
deriving DecidableEq, Repr

/-- State of a `ThreadingSmoothRateLimiter` right after `__init__`. -/
def initialRateState : RateState :=
  { lastTime := 0, lastReport := 0, reportCount := 0 }

/-- Result of one `wait()` call: updated state, the duration passed to
`time.sleep` (0 when no sleep happened), and the time at which the call
returns. -/
structure WaitResult : Type where
  state : RateState
  slept : ℚ
  returnTime : ℚ
deriving DecidableEq, Repr

/-- `ThreadingSmoothRateLimiter.__init__`: `_delay = 1/calls_per_second`. -/
def rateDelay (callsPerSecond : ℚ) : ℚ := 1 / callsPerSecond

/-- `ThreadingSmoothRateLimiter.wait()` with `_delay = delay` and
`_report_interval_seconds = reportInterval`, entered at time `entry`.
The first branch of the reporting block initialises `_last_report`, the
second logs the measured rate and resets `_report_count` and `_last_report`;
neither touches `_last_time`. -/
def wait (delay reportInterval : ℚ) (s : RateState) (entry : ℚ) : WaitResult :=
  let lastReport' :=
    if s.lastReport = 0 then entry
    else if s.lastReport < entry - reportInterval then entry
    else s.lastReport
  let reportCount' :=
    if s.lastReport = 0 then s.reportCount
    else if s.lastReport < entry - reportInterval then 0
    else s.reportCount
  let elapsed := entry - s.lastTime
  let remaining := delay - elapsed
  let slept := if remaining > 0 then remaining else 0
  let afterSleep := if remaining > 0 then entry + remaining else entry
  { state := { lastTime := afterSleep, lastReport := lastReport',
               reportCount := reportCount' + 1 },
    slept := slept,
    returnTime := entry + slept }

/-! ## ThreadingBoundedExecutor (threading_bounded_executor.py)

`__init__(bound, max_workers)` creates a `BoundedSemaphore(bound + max_workers)`
and a thread pool.  We track the semaphore value (as an integer, so that
non-negativity is a theorem and not a typing artifact) and the number of
tasks handed to the pool whose done-callback has not yet fired. -/

/-- State of a `ThreadingBoundedExecutor`: current semaphore value and the
number of submitted, not yet completed tasks (queued or running). -/
structure ExecState : Type where
  permits : ℤ
  tasks : ℕ
deriving DecidableEq, Repr

/-- Executor state right after `__init__(bound, max_workers)`. -/
def initialExec (bound maxWorkers : ℕ) : ExecState :=
  { permits := (bound + maxWorkers : ℕ), tasks := 0 }

/-- Result of `ThreadingBoundedExecutor.submit`. -/
inductive SubmitResult : Type where
  | blocked
  | raised (s : ExecState)
  | submitted (s : ExecState)
deriving DecidableEq, Repr

/-- `ThreadingBoundedExecutor.submit(fn, *args)`: `semaphore.acquire()` blocks
while the semaphore value is not positive (`blocked`); otherwise it decrements
the value and the task is handed to the pool.  If `executor.submit` raises
(`handoffOk = false`) the permit is released again and the exception
propagates (`raised`); otherwise a done-callback that will release the permit
is attached (`submitted`). -/
def submit (s : ExecState) (handoffOk : Bool) : SubmitResult :=
  if s.permits ≤ 0 then
    .blocked
  else if handoffOk then
    .submitted { permits := s.permits - 1, tasks := s.tasks + 1 }
  else
    .raised { permits := s.permits - 1 + 1, tasks := s.tasks }

/-- The done-callback `lambda x: self.semaphore.release()` attached to a
submitted future, fired exactly once when the task completes (success or
failure). -/
def taskDone (s : ExecState) : ExecState :=
  { permits := s.permits + 1, tasks := s.tasks - 1 }

/-- Events of an executor history: a `submit` whose pool handoff succeeds, a
`submit` whose pool handoff raises, and the completion of a submitted task. -/
inductive ExecEvent : Type where
  | submitOk
  | submitFail
  | taskComplete
deriving DecidableEq, Repr

/-- One step of an executor history.  `none` means the event cannot happen in
this state (`submit` would block on the semaphore; a done-callback cannot
fire with no outstanding task). -/
def execStep (s : ExecState) : ExecEvent → Option ExecState
  | .submitOk =>
      match submit s true with
      | .submitted s' => some s'
      | _ => none
  | .submitFail =>
      match submit s false with
      | .raised s' => some s'
      | _ => none
  | .taskComplete =>
      if s.tasks = 0 then none else some (taskDone s)

/-- Run an executor history from a state. -/
def execRun (s : ExecState) : List ExecEvent → Option ExecState
  | [] => some s
  | e :: es =>
      match execStep s e with
      | some s' => execRun s' es
      | none => none

/-! ## ThreadingAccumulator (threading_accumulator.py)

The buffer manipulation runs under `_list_lock`; we model `add`/`flush` as
functions of the buffer.  The outcome records the batch handed to
`_on_process` (if any) and whether `_process_lock` was acquired for it
(`serial` mode).  Python's `if process_list:` is truthiness on
`None`-or-list, so a dispatch happens only for a non-`None`, non-empty list;
we mirror that test exactly. -/

/-- Buffer state of a `ThreadingAccumulator` (`self._list`). -/
structure AccState (α : Type) where
  buf : List α
deriving DecidableEq, Repr

/-- Outcome of one `add` or `flush` call: new buffer state, the batch passed
to `_on_process` (`none` when `_on_process` was not called), and whether
`_process_lock` was acquired. -/
structure AccOut (α : Type) where
  state : AccState α
  batch : Option (List α)
  procLock : Bool
deriving DecidableEq, Repr

/-- Dispatch step shared by `add` and `flush`: `if process_list:` followed by
the serial/parallel call to `_on_process`. -/
def accDispatch {α : Type} (serial : Bool) (state : AccState α)
    (processList : Option (List α)) : AccOut α :=
  match processList with
  | some l =>
      if l.isEmpty then
        { state := state, batch := none, procLock := false }
      else
        { state := state, batch := some l, procLock := serial }
  | none => { state := state, batch := none, procLock := false }

/-- `ThreadingAccumulator.add(thing)` with threshold `_size = size` and flag
`_serial = serial`. -/
def add {α : Type} (size : ℕ) (serial : Bool) (s : AccState α) (x : α) : AccOut α :=
  let lst := s.buf ++ [x]
  if size ≤ lst.length then
    accDispatch serial { buf := [] } (some lst)
  else
    accDispatch serial { buf := lst } none

/-- `ThreadingAccumulator.flush()`. -/
def flush {α : Type} (serial : Bool) (s : AccState α) : AccOut α :=
  if 0 < s.buf.length then
    accDispatch serial { buf := [] } (some s.buf)
  else
    accDispatch serial s none

/-- Apply `add` for each element of the list in order, collecting the batches
handed to `_on_process`. -/
def runAdds {α : Type} (size : ℕ) (serial : Bool) (s : AccState α) :
    List α → AccState α × List (List α)
  | [] => (s, [])
  | x :: xs =>
      let o := add size serial s x
      let (s', bs) := runAdds size serial o.state xs
      (s', o.batch.toList ++ bs)

/-! ## MultiprocessingThreadingWorkQueue (multiprocessing_threading_work_queue.py) -/

/-- Failure surfaced by the tail of `run()` after all child processes have
joined: `BreakerTrippedException(reason)` or, were `consume_reason` ever to
find the slot empty, the uncaught `queue.Empty`. -/
inductive RunFailure (α : Type) where
  | breakerTripped (reason : α)
  | queueEmptyErr
deriving DecidableEq, Repr

/-- Tail of `MultiprocessingThreadingWorkQueue.run()` after the joins: the
parent checks `self._breaker.is_tripped()` (default granularity `defG`, the
parent-local cache state `lo` dating from the breaker construction) and, if
true, raises `BreakerTrippedException(reason=self._breaker.consume_reason())`;
otherwise it returns normally. -/
def runAfterJoin {α : Type} (sh : BreakerShared α) (lo : BreakerLocal)
    (defG now nowAfter : ℚ) : Except (RunFailure α) Unit :=
  if (is_tripped sh lo defG none now nowAfter).1 then
    match consume_reason sh with
    | .ok (r, _) => .error (.breakerTripped r)
    | .error _ => .error .queueEmptyErr
  else
    .ok ()

/-- Environment of one iteration of the `while True` loop in
`_distribute_work`: the shared breaker state at this iteration (other
processes may trip it between iterations), the two clock reads of the
`is_tripped` call, and whether `self._queue.put(item, timeout=1)` succeeds
within its timeout (`putOk = false` models the `queue.Full` path). -/
structure DistStep (α : Type) where
  shared : BreakerShared α
  now : ℚ
  nowAfter : ℚ
  putOk : Bool

/-- What one iteration of `_distribute_work` did. -/
inductive DistDecision : Type where
  | sawTripped
  | putSucceeded
  | timedOut
deriving DecidableEq, Repr

/-- Overall outcome of a `_distribute_work` call: the
`BreakerTrippingException` raise, a successful enqueue (the `break`), or the
loop still retrying when the supplied iteration environments run out. -/
inductive DistOutcome : Type where
  | raisedTripping
  | enqueued
  | retrying
deriving DecidableEq, Repr

/-- `MultiprocessingThreadingWorkQueue._distribute_work(item)`: loop; if
`self._breaker.is_tripped()` raise `BreakerTrippingException`; otherwise
`self._queue.put(item, timeout=1)` and `break` on success; on `queue.Full`
retry.  Returns the outcome, the final breaker-local state of the acquisition
process, and the trace of per-iteration decisions. -/
def distribute_work {α : Type} (defG : ℚ) (lo : BreakerLocal) :
    List (DistStep α) → DistOutcome × BreakerLocal × List DistDecision
  | [] => (.retrying, lo, [])
  | e :: rest =>
      let c := is_tripped e.shared lo defG none e.now e.nowAfter
      if c.1 then
        (.raisedTripping, c.2, [.sawTripped])
      else if e.putOk then
        (.enqueued, c.2, [.putSucceeded])
      else
        let k := distribute_work defG c.2 rest
        (k.1, k.2.1, .timedOut :: k.2.2)

/-- Checks the shape of a `_distribute_work` run: any number of timeouts
(each immediately followed by a breaker re-check), then either a single
observed trip that raises without enqueuing, a single successful enqueue, or
exhaustion while still retrying. -/
def distOk : List DistDecision → DistOutcome → Bool
  | [], .retrying => true
  | [.sawTripped], .raisedTripping => true
  | [.putSucceeded], .enqueued => true
  | .timedOut :: rest, o => distOk rest o
  | _, _ => false

/-! ### Worker process lifecycles (for cleanup-hook claims)

Each user hook either returns or raises; the raise is classified by the
exception's position in the `except` ladder of the entry methods. -/

/-- Outcome of calling one user hook (or the executor shutdown, or one pass
of the dequeue/dispatch loop): clean return, `BreakerTrippingException`, an
ordinary `Exception`, or a non-`Exception` `BaseException` such as
`KeyboardInterrupt`. -/
inductive HookOutcome : Type where
  | ok
  | tripping
  | exn
  | interrupt
deriving DecidableEq, Repr

/-- Observable events of `_acquisition_process_entry`. -/
inductive AcqEvent : Type where
  | setupHook
  | acquireHook
  | doneSet
  | tripBreaker
  | completeHook
deriving DecidableEq, Repr

/-- A scenario for `_acquisition_process_entry`: the outcomes of
`_on_acquisition_process_setup()`, `_acquire_work()` and
`_on_acquisition_process_complete()`. -/
structure AcqScenario : Type where
  setup : HookOutcome
  acquire : HookOutcome
  cleanup : HookOutcome
deriving DecidableEq, Repr

/-- Result of running a worker-process entry method: the exception that
propagates out of the method (ending the child process), the event trace, and
whether the guarded cleanup region logged an exception raised by a cleanup
call. -/
structure EntryResult (Ev : Type) where
  propagated : Option HookOutcome
  events : List Ev
  cleanupLogged : Bool
deriving DecidableEq, Repr

/-- Body of the `try` in `_acquisition_process_entry`: setup, then
`_acquire_work()`, then `self._done.set()`; the first raise aborts the rest. -/
def acqBody (sc : AcqScenario) : HookOutcome × List AcqEvent :=
  match sc.setup with
  | .ok =>
      match sc.acquire with
      | .ok => (.ok, [.setupHook, .acquireHook, .doneSet])
      | o => (o, [.setupHook, .acquireHook])
  | o => (o, [.setupHook])

/-- `MultiprocessingThreadingWorkQueue._acquisition_process_entry()`:
`except BreakerTrippingException` logs and exits quietly; `except
BaseException` trips the breaker and re-raises; the `finally` block calls
`_on_acquisition_process_complete()` and swallows (logs) anything it raises. -/
def acquisition_process_entry (sc : AcqScenario) : EntryResult AcqEvent :=
  let (body, evs) := acqBody sc
  let (prop, evs2) :=
    match body with
    | .ok => ((none : Option HookOutcome), evs)
    | .tripping => (none, evs)
    | .exn => (some HookOutcome.exn, evs ++ [AcqEvent.tripBreaker])
    | .interrupt => (some HookOutcome.interrupt, evs ++ [AcqEvent.tripBreaker])
  { propagated := prop,
    events := evs2 ++ [.completeHook],
    cleanupLogged := sc.cleanup ≠ .ok }

/-- Observable events of `_work_process_entry`. -/
inductive WorkEvent : Type where
  | setupHook
  | loopRun
  | tripBreaker
  | execShutdown
  | completeHook
deriving DecidableEq, Repr

/-- A scenario for `_work_process_entry`: the outcomes of
`_on_work_process_setup()`, of the dequeue/dispatch loop (`.ok` when the loop
exits via `break` on a tripped breaker or on the done flag), of
`executor.shutdown()` and of `_on_work_process_complete()`. -/
structure WorkScenario : Type where
  setup : HookOutcome
  loop : HookOutcome
  shutdown : HookOutcome
  cleanup : HookOutcome
deriving DecidableEq, Repr

/-- `MultiprocessingThreadingWorkQueue._work_process_entry()`: `executor =
None`; the `try` body runs setup, builds the rate limiter and the executor,
then the loop; `except BaseException` trips the breaker and re-raises; the
`finally` block shuts down the executor if it was constructed (swallowing and
logging any exception) and then calls `_on_work_process_complete()`
(swallowing and logging any exception). -/
def work_process_entry (sc : WorkScenario) : EntryResult WorkEvent :=
  let (body, evs, execMade) :=
    match sc.setup with
    | .ok => (sc.loop, [WorkEvent.setupHook, WorkEvent.loopRun], true)
    | o => (o, [WorkEvent.setupHook], false)
  let (prop, evs2) :=
    match body with
    | .ok => ((none : Option HookOutcome), evs)
    | o => (some o, evs ++ [WorkEvent.tripBreaker])
  let evs3 := if execMade then evs2 ++ [WorkEvent.execShutdown] else evs2
  { propagated := prop,
    events := evs3 ++ [.completeHook],
    cleanupLogged := sc.cleanup ≠ .ok ∨ (execMade ∧ sc.shutdown ≠ .ok) }

/-! ## Helper lemmas -/

theorem trip_slot_some {α : Type} (sh : BreakerShared α) (lo : BreakerLocal) (r v : α)
    (h : sh.reasonSlot = some v) : trip sh lo r = (sh, lo) := by
  simp [trip, tripE, queuePutNowait, h]

theorem trip_slot_none {α : Type} (sh : BreakerShared α) (lo : BreakerLocal) (r : α)
    (h : sh.reasonSlot = none) :
    trip sh lo r = ({ eventSet := true, reasonSlot := some r }, { lo with cached := true }) := by
  simp [trip, tripE, queuePutNowait, h]

/-- Invariant of all states reachable from a fresh breaker: a set cache
implies a set event, and the reason slot is occupied exactly when the event
is set. -/
def breakerInvP {α : Type} (s : BreakerShared α × BreakerLocal) : Prop :=
  (s.2.cached = true → s.1.eventSet = true) ∧ s.1.reasonSlot.isSome = s.1.eventSet

theorem breakerInvP_init {α : Type} (t0 : ℚ) :
    breakerInvP (initialShared α, initialLocal t0) := by
  constructor <;> simp [initialShared, initialLocal]

theorem breakerInvP_trip {α : Type} {sh : BreakerShared α} {lo : BreakerLocal}
    (h : breakerInvP (sh, lo)) (r : α) : breakerInvP (trip sh lo r) := by
  cases hs : sh.reasonSlot with
  | none => rw [trip_slot_none sh lo r hs]; constructor <;> simp
  | some v => rw [trip_slot_some sh lo r v hs]; exact h

theorem breakerInvP_tripShared {α : Type} {sh : BreakerShared α} {lo : BreakerLocal}
    (h : breakerInvP (sh, lo)) (r : α) : breakerInvP (tripShared sh r, lo) := by
  cases hs : sh.reasonSlot with
  | none =>
      unfold tripShared
      rw [trip_slot_none sh _ r hs]
      exact ⟨fun _ => rfl, by simp⟩
  | some v =>
      unfold tripShared
      rw [trip_slot_some sh _ r v hs]
      exact h

theorem breakerInvP_check {α : Type} {sh : BreakerShared α} {lo : BreakerLocal}
    (h : breakerInvP (sh, lo)) (defG : ℚ) (g : Option ℚ) (now na : ℚ) :
    breakerInvP (sh, (is_tripped sh lo defG g now na).2) := by
  unfold is_tripped
  by_cases hc : g.getD defG ≤ 0 ∨ now - lo.checked ≥ g.getD defG
  · simp only [hc, if_pos]
    exact ⟨fun hv => hv, h.2⟩
  · simp only [hc, if_neg, not_false_iff]
    exact h

theorem breakerInvP_step {α : Type} {s : BreakerShared α × BreakerLocal}
    (h : breakerInvP s) (defG : ℚ) (op : BreakerOp α) :
    breakerInvP (breakerStep defG s op).1 := by
  obtain ⟨sh, lo⟩ := s
  cases op with
  | tripLocal r => exact breakerInvP_trip h r
  | tripRemote r => exact breakerInvP_tripShared h r
  | check g now na => exact breakerInvP_check h defG g now na

theorem breakerInvP_run {α : Type} {s : BreakerShared α × BreakerLocal}
    (h : breakerInvP s) (defG : ℚ) (ops : List (BreakerOp α)) :
    breakerInvP (breakerRun defG s ops).1 := by
  induction ops generalizing s with
  | nil => exact h
  | cons op ops ih =>
      simp only [breakerRun]
      exact ih (breakerInvP_step h defG op)

/-- A breaker state is "hot" when both the shared event and this process's
cache read true.  Once hot, every later `is_tripped` call returns `true`. -/
def hotP {α : Type} (s : BreakerShared α × BreakerLocal) : Prop :=
  s.1.eventSet = true ∧ s.2.cached = true

theorem hotP_step {α : Type} {s : BreakerShared α × BreakerLocal}
    (h : hotP s) (defG : ℚ) (op : BreakerOp α) :
    hotP (breakerStep defG s op).1 ∧ ∀ b, (breakerStep defG s op).2 = some b → b = true := by
  obtain ⟨sh, lo⟩ := s
  obtain ⟨h1, h2⟩ := h
  replace h1 : sh.eventSet = true := h1
  replace h2 : lo.cached = true := h2
  cases op with
  | tripLocal r =>
      refine ⟨?_, by simp [breakerStep]⟩
      cases hs : sh.reasonSlot with
      | none => simp [breakerStep, trip_slot_none sh lo r hs, hotP, h2]
      | some v => simp [breakerStep, trip_slot_some sh lo r v hs]; exact ⟨h1, h2⟩
  | tripRemote r =>
      refine ⟨?_, by simp [breakerStep]⟩
      cases hs : sh.reasonSlot with
      | none =>
          simp [breakerStep, tripShared, trip_slot_none sh _ r hs, hotP, h2]
      | some v =>
          simp [breakerStep, tripShared, trip_slot_some sh _ r v hs]
          exact ⟨h1, h2⟩
  | check g now na =>
      unfold breakerStep is_tripped
      by_cases hc : g.getD defG ≤ 0 ∨ now - lo.checked ≥ g.getD defG
      · simp only [hc, if_pos]
        exact ⟨⟨h1, h1⟩, fun b hb => by simp only [h1] at hb; exact (Option.some_inj.mp hb).symm⟩
      · simp only [hc, if_neg, not_false_iff]
        exact ⟨⟨h1, h2⟩, fun b hb => by simp only [h2] at hb; exact (Option.some_inj.mp hb).symm⟩

theorem hotP_run_all {α : Type} {s : BreakerShared α × BreakerLocal}
    (h : hotP s) (defG : ℚ) (ops : List (BreakerOp α)) :
    ((breakerRun defG s ops).2).all (fun x => x = true) = true := by
  induction ops generalizing s with
  | nil => simp [breakerRun]
  | cons op ops ih =>
      simp only [breakerRun, List.all_append]
      have hst := hotP_step h defG op
      refine Bool.and_eq_true_iff.mpr ⟨?_, ih hst.1⟩
      cases hout : (breakerStep defG s op).2 with
      | none => simp
      | some b => simp [hst.2 b hout]

theorem monoOk_cons_true (l : List Bool) :
    monoOk (true :: l) = l.all (fun x => x = true) := by
  simp [monoOk]

theorem monoOk_cons_false (l : List Bool) : monoOk (false :: l) = monoOk l := by
  simp [monoOk]

theorem monoOk_run {α : Type} {s : BreakerShared α × BreakerLocal}
    (h : breakerInvP s) (defG : ℚ) (ops : List (BreakerOp α)) :
    monoOk (breakerRun defG s ops).2 = true := by
  induction ops generalizing s with
  | nil => simp [breakerRun, monoOk]
  | cons op ops ih =>
      obtain ⟨sh, lo⟩ := s
      simp only [breakerRun]
      cases op with
      | tripLocal r =>
          simpa [breakerStep] using ih (breakerInvP_trip h r)
      | tripRemote r =>
          simpa [breakerStep] using ih (breakerInvP_tripShared h r)
      | check g now na =>
          unfold breakerStep is_tripped
          by_cases hc : g.getD defG ≤ 0 ∨ now - lo.checked ≥ g.getD defG
          · simp only [hc, if_pos]
            cases he : sh.eventSet with
            | false =>
                simp only [he, Option.toList_some, List.cons_append, List.nil_append,
                  monoOk_cons_false]
                exact ih (by
                  refine ⟨fun hv => ?_, h.2⟩
                  simp at hv)
            | true =>
                simp only [he, Option.toList_some, List.cons_append, List.nil_append,
                  monoOk_cons_true]
                exact hotP_run_all ⟨he, rfl⟩ defG ops
          · simp only [hc, if_neg, not_false_iff]
            cases hcch : lo.cached with
            | false =>
                simp only [hcch, Option.toList_some, List.cons_append, List.nil_append,
                  monoOk_cons_false]
                exact ih h
            | true =>
                simp only [hcch, Option.toList_some, List.cons_append, List.nil_append,
                  monoOk_cons_true]
                exact hotP_run_all ⟨h.1 hcch, hcch⟩ defG ops

theorem add_dispatch {α : Type} (size : ℕ) (serial : Bool) (s : AccState α) (x : α)
    (h : size ≤ s.buf.length + 1) :
    add size serial s x =
      { state := { buf := [] }, batch := some (s.buf ++ [x]), procLock := serial } := by
  simp [add, accDispatch, h]

theorem add_no_dispatch {α : Type} (size : ℕ) (serial : Bool) (s : AccState α) (x : α)
    (h : s.buf.length + 1 < size) :
    add size serial s x =
      { state := { buf := s.buf ++ [x] }, batch := none, procLock := false } := by
  have h' : ¬ size ≤ s.buf.length + 1 := by omega
  simp [add, accDispatch, h']

/-- Conservation through a run of `add`s: the batches dispatched so far plus
the residual buffer hold exactly the initial buffer followed by the added
items, in order. -/
theorem runAdds_flatten {α : Type} (size : ℕ) (serial : Bool) (s : AccState α)
    (xs : List α) :
    ((runAdds size serial s xs).2).flatten ++ (runAdds size serial s xs).1.buf
      = s.buf ++ xs := by
  induction xs generalizing s with
  | nil => simp [runAdds]
  | cons x xs ih =>
      simp only [runAdds]
      by_cases h : size ≤ s.buf.length + 1
      · rw [add_dispatch size serial s x h]
        simpa using ih ({ buf := [] } : AccState α)
      · rw [add_no_dispatch size serial s x (Nat.not_le.mp h)]
        simpa using ih ({ buf := s.buf ++ [x] } : AccState α)

/-- Invariant of executor histories: the semaphore value is non-negative and
accounts exactly for the outstanding tasks. -/
def execInvP (cap : ℕ) (s : ExecState) : Prop :=
  0 ≤ s.permits ∧ s.permits + (s.tasks : ℤ) = (cap : ℤ)

theorem execInvP_run (cap : ℕ) {s t : ExecState} (h : execInvP cap s)
    (evs : List ExecEvent) (hrun : execRun s evs = some t) : execInvP cap t := by
  induction evs generalizing s with
  | nil =>
      simp only [execRun] at hrun
      obtain rfl := Option.some_inj.mp hrun
      exact h
  | cons e es ih =>
      simp only [execRun] at hrun
      obtain ⟨h1, h2⟩ := h
      cases e with
      | submitOk =>
          by_cases hp : s.permits ≤ 0
          · simp [execStep, submit, hp] at hrun
          · simp only [execStep, submit, hp, if_neg, if_pos, not_false_iff] at hrun
            refine ih ⟨?_, ?_⟩ hrun
            · show (0 : ℤ) ≤ s.permits - 1
              omega
            · show s.permits - 1 + ((s.tasks + 1 : ℕ) : ℤ) = (cap : ℤ)
              omega
      | submitFail =>
          by_cases hp : s.permits ≤ 0
          · simp [execStep, submit, hp] at hrun
          · simp only [execStep, submit, hp, if_neg, if_pos, not_false_iff] at hrun
            refine ih ⟨?_, ?_⟩ hrun
            · show (0 : ℤ) ≤ s.permits - 1 + 1
              omega
            · show s.permits - 1 + 1 + ((s.tasks : ℕ) : ℤ) = (cap : ℤ)
              omega
      | taskComplete =>
          by_cases ht : s.tasks = 0
          · simp [execStep, ht] at hrun
          · simp only [execStep, ht, if_neg, not_false_iff] at hrun
            refine ih ⟨?_, ?_⟩ hrun
            · show (0 : ℤ) ≤ s.permits + 1
              omega
            · show s.permits + 1 + ((s.tasks - 1 : ℕ) : ℤ) = (cap : ℤ)
              omega

theorem applyTrips_slot_some {α : Type} (sh : BreakerShared α) (lo : BreakerLocal)
    (rs : List α) (v : α) (h : sh.reasonSlot = some v) : applyTrips sh lo rs = (sh, lo) := by
  induction rs with
  | nil => rfl
  | cons r rs ih =>
      simp only [applyTrips, trip_slot_some sh lo r v h]
      exact ih

/-! ## Claim theorems -/

/-- C3: on every reachable breaker state, `trip(reason)` never raises an
observable error (its only internal exception, `queue.Full` from the
non-blocking put, is swallowed); when the one-slot reason channel is already
filled the new reason is silently dropped (the slot keeps its old content);
and after the call the shared tripped flag is set whether or not the slot
accepted the reason. -/
theorem trip_sets_flag_and_drops_duplicate_reason (defG t0 : ℚ)
    (ops : List (BreakerOp ℕ)) (sh : BreakerShared ℕ) (lo : BreakerLocal) (r : ℕ)
    (hreach : (sh, lo) = (breakerRun defG (initialShared ℕ, initialLocal t0) ops).1) :
    tripE sh lo r = .ok (trip sh lo r)
  ∧ (trip sh lo r).1.reasonSlot = (if sh.reasonSlot.isSome then sh.reasonSlot else some r)
  ∧ (trip sh lo r).1.eventSet = true := by
  have hinv : breakerInvP (sh, lo) := by
    rw [hreach]
    exact breakerInvP_run (breakerInvP_init t0) defG ops
  refine ⟨?_, ?_, ?_⟩
  · cases hs : sh.reasonSlot <;> simp [trip, tripE, queuePutNowait, hs]
  · cases hs : sh.reasonSlot with
    | none => simp [trip_slot_none sh lo r hs, hs]
    | some v => simp [trip_slot_some sh lo r v hs, hs]
  · cases hs : sh.reasonSlot with
    | none => simp [trip_slot_none sh lo r hs]
    | some v =>
        rw [trip_slot_some sh lo r v hs]
        have h2 : sh.reasonSlot.isSome = sh.eventSet := hinv.2
        rw [hs] at h2
        exact h2.symm

/-- C3 witness: on the freshly constructed breaker, a `trip` succeeds without
raising and leaves the shared flag set. -/
theorem trip_sets_flag_and_drops_duplicate_reason_witness :
    tripE (initialShared ℕ) (initialLocal 0) 7 =
      .ok (trip (initialShared ℕ) (initialLocal 0) 7)
  ∧ (trip (initialShared ℕ) (initialLocal 0) 7).1.eventSet = true := by
  have h := trip_sets_flag_and_drops_duplicate_reason 1 0 [] (initialShared ℕ)
    (initialLocal 0) 7 rfl
  exact ⟨h.1, h.2.2⟩

/-- C4: after any sequence of `trip` calls on a fresh breaker, the one-slot
reason channel holds exactly the first trip's reason (later trips' reasons
are never stored, hence never returned); `consume_reason` returns that first
reason and fails with `queue.Empty` exactly when the sequence was empty; and
a second `consume_reason` after the single reason was removed fails as well,
whatever the flag says. -/
theorem consume_reason_first_trip_wins (t0 : ℚ) (rs : List ℕ) :
    ((applyTrips (initialShared ℕ) (initialLocal t0) rs).1.reasonSlot = rs.head?)
  ∧ (consume_reason (applyTrips (initialShared ℕ) (initialLocal t0) rs).1 =
      match rs.head? with
      | some r =>
          .ok (r, { (applyTrips (initialShared ℕ) (initialLocal t0) rs).1 with
                     reasonSlot := none })
      | none => .error .empty)
  ∧ (∀ b : Bool,
      consume_reason ({ eventSet := b, reasonSlot := none } : BreakerShared ℕ) =
        .error .empty) := by
  have hslot : ∀ r rest, applyTrips (initialShared ℕ) (initialLocal t0) (r :: rest) =
      ({ eventSet := true, reasonSlot := some r }, { cached := true, checked := t0 }) := by
    intro r rest
    simp only [applyTrips, trip_slot_none (initialShared ℕ) (initialLocal t0) r rfl]
    exact applyTrips_slot_some _ _ rest r rfl
  refine ⟨?_, ?_, ?_⟩
  · cases rs with
    | nil => rfl
    | cons r rest => rw [hslot r rest]; rfl
  · cases rs with
    | nil => rfl
    | cons r rest =>
        rw [hslot r rest]
        rfl
  · intro b
    rfl

/-- C5: `is_tripped` reads the shared event freshly when the effective
granularity is not positive; with a positive granularity it returns the
cached value untouched while less than `granularity` has elapsed since the
last refresh and re-reads the event (recording the refresh time) once at
least `granularity` has elapsed; and over any trace of operations on a fresh
breaker the sequence of `is_tripped` results is monotone: once a call
returns `true`, no later call returns `false`. -/
theorem is_tripped_caching_and_monotone (defG t0 : ℚ) (ops : List (BreakerOp ℕ)) :
    (∀ (sh : BreakerShared ℕ) (lo : BreakerLocal) (g : Option ℚ) (now na : ℚ),
        g.getD defG ≤ 0 →
        is_tripped sh lo defG g now na =
          (sh.eventSet, { cached := sh.eventSet, checked := na }))
  ∧ (∀ (sh : BreakerShared ℕ) (lo : BreakerLocal) (g : Option ℚ) (now na : ℚ),
        0 < g.getD defG → now - lo.checked < g.getD defG →
        is_tripped sh lo defG g now na = (lo.cached, lo))
  ∧ (∀ (sh : BreakerShared ℕ) (lo : BreakerLocal) (g : Option ℚ) (now na : ℚ),
        now - lo.checked ≥ g.getD defG →
        is_tripped sh lo defG g now na =
          (sh.eventSet, { cached := sh.eventSet, checked := na }))
  ∧ monoOk (breakerRun defG (initialShared ℕ, initialLocal t0) ops).2 = true := by
  refine ⟨?_, ?_, ?_, ?_⟩
  · intro sh lo g now na hg
    simp [is_tripped, hg]
  · intro sh lo g now na hg helapsed
    have hcond : ¬ (g.getD defG ≤ 0 ∨ now - lo.checked ≥ g.getD defG) := by
      push_neg
      exact ⟨by linarith, by linarith⟩
    simp [is_tripped, hcond]
  · intro sh lo g now na helapsed
    simp [is_tripped, helapsed]
  · exact monoOk_run (breakerInvP_init t0) defG ops

/-- C5 witness: with granularity 0.1 and only 0.05 elapsed since the last
refresh, `is_tripped` returns the stale cached `false` even though the shared
event is set; and a trace of a remote trip followed by two polls has a
monotone result sequence. -/
theorem is_tripped_caching_and_monotone_witness :
    is_tripped ({ eventSet := true, reasonSlot := some 1 } : BreakerShared ℕ)
        { cached := false, checked := 0 } (1/10) none (1/20) (1/20) =
      (false, { cached := false, checked := 0 })
  ∧ monoOk (breakerRun (1/10) (initialShared ℕ, initialLocal 0)
      [.tripRemote 1, .check none (1/20) (1/20), .check none 1 1]).2 = true := by
  have h := is_tripped_caching_and_monotone (1/10) 0
    [.tripRemote 1, .check none (1/20) (1/20), .check none 1 1]
  refine ⟨?_, h.2.2.2⟩
  exact h.2.1 _ _ none (1/20) (1/20) (by norm_num) (by norm_num)

/-- C10: `flush` on an empty buffer is a no-op: `_on_process` is not called,
the process lock is not acquired and the state is unchanged; and every batch
that `add` or `flush` does hand to `_on_process` is non-empty. -/
theorem no_empty_batches (α : Type) (serial : Bool) :
    flush serial ({ buf := [] } : AccState α) =
      { state := { buf := [] }, batch := none, procLock := false }
  ∧ (∀ (size : ℕ) (s : AccState α) (x : α) (l : List α),
      (add size serial s x).batch = some l → l ≠ [])
  ∧ (∀ (s : AccState α) (l : List α), (flush serial s).batch = some l → l ≠ []) := by
  refine ⟨by simp [flush, accDispatch], ?_, ?_⟩
  · intro size s x l hb
    by_cases h : size ≤ s.buf.length + 1
    · rw [add_dispatch size serial s x h] at hb
      simp only [Option.some_inj] at hb
      subst hb
      simp
    · rw [add_no_dispatch size serial s x (Nat.not_le.mp h)] at hb
      simp at hb
  · intro s l hb
    cases hbuf : s.buf with
    | nil => simp [flush, hbuf, accDispatch] at hb
    | cons y ys =>
        simp only [flush, hbuf] at hb
        simp [accDispatch] at hb
        exact fun hc => by simp [hc] at hb

/-- C10 witness: an `add` that fills the buffer to its threshold dispatches a
non-empty batch. -/
theorem no_empty_batches_witness : ([5] : List ℕ) ≠ [] := by
  have h := no_empty_batches ℕ true
  exact h.2.1 1 { buf := [] } 5 [5] rfl

/-- C8: for every threshold, serial flag and finite sequence of `add` calls
followed by a `flush`, the concatenation of the batches handed to
`_on_process` is exactly the sequence of items added — each item lands in
exactly one batch, in order, so the multisets agree; moreover `add`
dispatches precisely when the appended item makes the buffer reach the
threshold, atomically swapping in an empty buffer, and buffers below the
threshold are kept. -/
theorem accumulator_conserves_items (α : Type) (size : ℕ) (serial : Bool)
    (xs : List α) :
    ((runAdds size serial { buf := [] } xs).2 ++
        (flush serial (runAdds size serial { buf := [] } xs).1).batch.toList).flatten
      = xs
  ∧ (∀ (s : AccState α) (x : α), s.buf.length + 1 < size →
      add size serial s x =
        { state := { buf := s.buf ++ [x] }, batch := none, procLock := false })
  ∧ (∀ (s : AccState α) (x : α), s.buf.length + 1 = size →
      add size serial s x =
        { state := { buf := [] }, batch := some (s.buf ++ [x]),
          procLock := serial }) := by
  refine ⟨?_, ?_, ?_⟩
  · have hmain := runAdds_flatten size serial ({ buf := [] } : AccState α) xs
    simp only [List.nil_append] at hmain
    rw [List.flatten_append]
    cases hbuf : (runAdds size serial ({ buf := [] } : AccState α) xs).1.buf with
    | nil =>
        rw [hbuf, List.append_nil] at hmain
        simp [flush, hbuf, accDispatch, hmain]
    | cons y ys =>
        rw [hbuf] at hmain
        simp only [flush, hbuf, accDispatch, List.length_cons, Nat.zero_lt_succ, if_pos,
          List.isEmpty_cons, Bool.false_eq_true, if_neg, not_false_iff,
          Option.toList_some, List.flatten_cons, List.flatten_nil, List.append_nil]
        exact hmain
  · intro s x h
    exact add_no_dispatch size serial s x h
  · intro s x h
    exact add_dispatch size serial s x (le_of_eq h.symm)

/-- C8 witness: with threshold 2, adding `[1, 2, 3]` and flushing yields the
batches `[1, 2]` and `[3]`, conserving the items; and an `add` that reaches
the threshold dispatches the swapped-out buffer. -/
theorem accumulator_conserves_items_witness :
    ((runAdds 2 true { buf := [] } [1, 2, 3]).2 ++
        (flush true (runAdds 2 true { buf := [] } [1, 2, 3]).1).batch.toList).flatten
      = [1, 2, 3]
  ∧ add 2 true ({ buf := [5] } : AccState ℕ) 6 =
      { state := { buf := [] }, batch := some [5, 6], procLock := true } := by
  have h := accumulator_conserves_items ℕ 2 true [1, 2, 3]
  exact ⟨h.1, h.2.2 { buf := [5] } 6 rfl⟩

/-- C7: along every executor history from `__init__(bound, max_workers)`
(interleaved submits with successful or failing pool handoff, and task
completions firing the done-callback), the semaphore value never goes
negative and always accounts exactly for the outstanding tasks, so the
number of in-flight plus pending tasks never exceeds `bound + max_workers`;
a `submit` whose handoff raises releases its permit (restoring the state)
and propagates the error; a successful `submit` consumes exactly one permit;
and `submit` blocks when no permit is available. -/
theorem executor_bounded_backlog (bound maxWorkers : ℕ) (evs : List ExecEvent)
    (s : ExecState) (hrun : execRun (initialExec bound maxWorkers) evs = some s) :
    0 ≤ s.permits
  ∧ s.permits + (s.tasks : ℤ) = ((bound + maxWorkers : ℕ) : ℤ)
  ∧ s.tasks ≤ bound + maxWorkers
  ∧ (∀ t : ExecState, 0 < t.permits → submit t false = .raised t)
  ∧ (∀ t : ExecState, 0 < t.permits →
      submit t true = .submitted { permits := t.permits - 1, tasks := t.tasks + 1 })
  ∧ (∀ t : ExecState, t.permits ≤ 0 → submit t false = .blocked ∧ submit t true = .blocked) := by
  have hinit : execInvP (bound + maxWorkers) (initialExec bound maxWorkers) := by
    constructor
    · show (0 : ℤ) ≤ ((bound + maxWorkers : ℕ) : ℤ)
      positivity
    · show ((bound + maxWorkers : ℕ) : ℤ) + ((0 : ℕ) : ℤ) = ((bound + maxWorkers : ℕ) : ℤ)
      simp
  have hinv := execInvP_run (bound + maxWorkers) hinit evs hrun
  refine ⟨hinv.1, hinv.2, ?_, ?_, ?_, ?_⟩
  · have h1 := hinv.1
    have h2 := hinv.2
    omega
  · intro t ht
    have hn : ¬ t.permits ≤ 0 := not_le.mpr ht
    show (if t.permits ≤ 0 then SubmitResult.blocked
          else if false = true then SubmitResult.submitted _ else SubmitResult.raised _)
        = SubmitResult.raised t
    rw [if_neg hn]
    simp only [Bool.false_eq_true, if_neg, not_false_iff]
    have harith : t.permits - 1 + 1 = t.permits := by ring
    rw [harith]
  · intro t ht
    have hn : ¬ t.permits ≤ 0 := not_le.mpr ht
    simp [submit, hn]
  · intro t ht
    exact ⟨by simp [submit, ht], by simp [submit, ht]⟩

/-- C7 witness: from capacity `1 + 1`, one successful submit leaves one
permit and one outstanding task, within the bound. -/
theorem executor_bounded_backlog_witness :
    (0 : ℤ) ≤ ({ permits := 1, tasks := 1 } : ExecState).permits
  ∧ ({ permits := 1, tasks := 1 } : ExecState).tasks ≤ 1 + 1 := by
  have h := executor_bounded_backlog 1 1 [ExecEvent.submitOk]
    { permits := 1, tasks := 1 } (by decide)
  exact ⟨h.1, h.2.2.1⟩

/-- C6: a `wait()` call on a limiter whose `_delay` is non-negative, entered
no earlier than the committed `_last_time`, sleeps at most `_delay` seconds;
it commits `_last_time` to `entry + max 0 remaining` — the scheduled release,
not the post-sleep clock reading; the modelled return time equals that
schedule, and any immediately following `wait()` returns at least `_delay`
later; finally the periodic rate-reporting fields influence neither the sleep
nor the committed schedule nor the return time. -/
theorem wait_smooth_pacing (delay reportInterval : ℚ) (s : RateState) (entry : ℚ)
    (hd : 0 ≤ delay) (hs : s.lastTime ≤ entry) :
    (wait delay reportInterval s entry).slept ≤ delay
  ∧ (wait delay reportInterval s entry).state.lastTime
      = entry + max 0 (delay - (entry - s.lastTime))
  ∧ (wait delay reportInterval s entry).returnTime
      = (wait delay reportInterval s entry).state.lastTime
  ∧ (∀ entry' : ℚ,
      (wait delay reportInterval (wait delay reportInterval s entry).state entry').returnTime
        ≥ (wait delay reportInterval s entry).returnTime + delay)
  ∧ (∀ (lr : ℚ) (rc : ℕ),
      (wait delay reportInterval { s with lastReport := lr, reportCount := rc } entry).slept
          = (wait delay reportInterval s entry).slept
        ∧ (wait delay reportInterval
              { s with lastReport := lr, reportCount := rc } entry).state.lastTime
          = (wait delay reportInterval s entry).state.lastTime
        ∧ (wait delay reportInterval
              { s with lastReport := lr, reportCount := rc } entry).returnTime
          = (wait delay reportInterval s entry).returnTime) := by
  refine ⟨?_, ?_, ?_, ?_, ?_⟩
  · by_cases hr : delay - (entry - s.lastTime) > 0
    · simp only [wait, hr, if_pos]
      linarith
    · simp only [wait, hr, if_neg, not_false_iff]
      exact hd
  · by_cases hr : delay - (entry - s.lastTime) > 0
    · simp only [wait, hr, if_pos]
      rw [max_eq_right (le_of_lt hr)]
    · simp only [wait, hr, if_neg, not_false_iff]
      rw [max_eq_left (not_lt.mp hr)]
      ring
  · by_cases hr : delay - (entry - s.lastTime) > 0
    · simp only [wait, hr, if_pos]
    · simp only [wait, hr, if_neg, not_false_iff]
      ring
  · intro entry'
    by_cases hr : delay - (entry - s.lastTime) > 0
    · by_cases hr' : delay - (entry' - (entry + (delay - (entry - s.lastTime)))) > 0
      · simp only [wait, hr, hr', if_pos]
        linarith
      · simp only [wait, hr, hr', if_pos, if_neg, not_false_iff]
        push_neg at hr'
        linarith
    · by_cases hr' : delay - (entry' - entry) > 0
      · simp only [wait, hr, hr', if_pos, if_neg, not_false_iff]
        push_neg at hr
        linarith
      · simp only [wait, hr, hr', if_neg, not_false_iff]
        push_neg at hr hr'
        linarith
  · intro lr rc
    refine ⟨?_, ?_, ?_⟩ <;> simp only [wait]

/-- C6 witness: with rate 5 (delay 0.2) and last release at 0, a `wait()`
entered at 0.1 sleeps 0.1 ≤ 0.2. -/
theorem wait_smooth_pacing_witness :
    (wait (rateDelay 5) 5 { lastTime := 0, lastReport := 0, reportCount := 0 }
      (1/10)).slept ≤ rateDelay 5 := by
  have h := wait_smooth_pacing (rateDelay 5) 5
    { lastTime := 0, lastReport := 0, reportCount := 0 } (1/10)
    (by norm_num [rateDelay]) (by norm_num)
  exact h.1

/-- C1 counterexample: a worker trips the breaker on a fresh pipeline (shared
event set, reason published), but when the children join within the parent
breaker's 0.1s cache granularity, the final `is_tripped()` in `run()` returns
the stale cached `false` and `run()` returns normally — the tripped breaker
is not surfaced as `BreakerTrippedException`. -/
theorem run_misses_trip_within_granularity :
    (tripShared (initialShared ℕ) 3).eventSet = true
  ∧ (tripShared (initialShared ℕ) 3).reasonSlot = some 3
  ∧ runAfterJoin (tripShared (initialShared ℕ) 3) (initialLocal 0) (1/10) (1/20) (1/20)
      = .ok () := by
  have hsh : tripShared (initialShared ℕ) 3 =
      { eventSet := true, reasonSlot := some 3 } := by
    unfold tripShared
    rw [trip_slot_none (initialShared ℕ) _ 3 rfl]
  refine ⟨by rw [hsh], by rw [hsh], ?_⟩
  have hcheck : (is_tripped (tripShared (initialShared ℕ) 3) (initialLocal 0)
      (1/10) none (1/20) (1/20)).1 = false := by
    rw [hsh]
    simp only [is_tripped, initialLocal, Option.getD_none]
    norm_num
  unfold runAfterJoin
  rw [hcheck]
  simp

/-- C1 (amended): `run()` blocks until all children join; it then returns
normally exactly when the parent's final `is_tripped()` check observes the
breaker untripped (a trip landing within the cache granularity of that check
can be missed).  When the check observes the trip, the only failure surfaced
is `BreakerTrippedException` carrying the consumed reason, which is the one
sitting in the single-slot channel. -/
theorem runAfterJoin_surfaces_observed_trip (defG t0 now na : ℚ)
    (ops : List (BreakerOp ℕ)) (sh : BreakerShared ℕ) (lo : BreakerLocal)
    (hreach : (sh, lo) = (breakerRun defG (initialShared ℕ, initialLocal t0) ops).1) :
    (runAfterJoin sh lo defG now na = .ok ()
      ↔ (is_tripped sh lo defG none now na).1 = false)
  ∧ (∀ e, runAfterJoin sh lo defG now na = .error e →
      ∃ r, e = .breakerTripped r ∧ sh.reasonSlot = some r) := by
  have hinv : breakerInvP (sh, lo) := by
    rw [hreach]
    exact breakerInvP_run (breakerInvP_init t0) defG ops
  have hslot : (is_tripped sh lo defG none now na).1 = true → sh.reasonSlot.isSome := by
    intro ht
    unfold is_tripped at ht
    by_cases hc : (none : Option ℚ).getD defG ≤ 0 ∨ now - lo.checked ≥ (none : Option ℚ).getD defG
    · rw [if_pos hc] at ht
      rw [hinv.2]
      exact ht
    · rw [if_neg hc] at ht
      rw [hinv.2]
      exact hinv.1 ht
  cases hcheck : (is_tripped sh lo defG none now na).1 with
  | false =>
      refine ⟨by simp [runAfterJoin, hcheck], ?_⟩
      intro e he
      simp [runAfterJoin, hcheck] at he
  | true =>
      obtain ⟨r, hr⟩ := Option.isSome_iff_exists.mp (hslot hcheck)
      have hres : runAfterJoin sh lo defG now na = .error (.breakerTripped r) := by
        simp [runAfterJoin, hcheck, consume_reason, queueGetNowait, hr]
      refine ⟨by simp [hres], ?_⟩
      intro e he
      rw [hres] at he
      exact ⟨r, by simpa using he.symm, hr⟩

/-- C1 amended witness: with a remote trip and a final check past the
granularity window, `run()` is not on the normal-return side of the
equivalence (the check observes the trip). -/
theorem runAfterJoin_surfaces_observed_trip_witness :
    (runAfterJoin (tripShared (initialShared ℕ) 7) (initialLocal 0) (1/10) 1 1 = .ok ()
      ↔ (is_tripped (tripShared (initialShared ℕ) 7) (initialLocal 0) (1/10)
          none 1 1).1 = false) := by
  have h := runAfterJoin_surfaces_observed_trip (1/10) 0 1 1 [.tripRemote 7]
    (tripShared (initialShared ℕ) 7) (initialLocal 0) rfl
  exact h.1

/-- C2 counterexample: the breaker has already been tripped by another
process (shared event set), yet inside the granularity window the acquisition
process's `is_tripped()` still answers from its stale cache, so
`_distribute_work` enqueues the item after the trip. -/
theorem distribute_enqueues_after_trip :
    (tripShared (initialShared ℕ) 3).eventSet = true
  ∧ (distribute_work (1/10) (initialLocal 0)
      [{ shared := tripShared (initialShared ℕ) 3, now := 1/20, nowAfter := 1/20,
         putOk := true }]).1 = .enqueued := by
  have hsh : tripShared (initialShared ℕ) 3 =
      { eventSet := true, reasonSlot := some 3 } := by
    unfold tripShared
    rw [trip_slot_none (initialShared ℕ) _ 3 rfl]
  refine ⟨by rw [hsh], ?_⟩
  have hcheck : (is_tripped (tripShared (initialShared ℕ) 3) (initialLocal 0)
      (1/10) none (1/20) (1/20)).1 = false := by
    rw [hsh]
    simp only [is_tripped, initialLocal, Option.getD_none]
    norm_num
  simp only [distribute_work]
  rw [hcheck]
  simp

/-- C2 (amended): `_distribute_work` raises `BreakerTrippingException` as
soon as `is_tripped` observes the trip, without attempting that enqueue; it
enqueues at most once, only at an iteration where `is_tripped` observed the
breaker untripped and the bounded-time put succeeded; and on each timeout it
re-checks the breaker and retries — every run's iteration decisions are some
timeouts followed by exactly one of: an observed trip that raises, a
successful enqueue, or exhaustion of the supplied iterations while still
retrying.  (An enqueue may still happen after the actual trip, while the
cached poll is stale: see the counterexample.) -/
theorem distribute_work_shape (α : Type) (defG : ℚ) (lo : BreakerLocal)
    (envs : List (DistStep α)) :
    distOk (distribute_work defG lo envs).2.2 (distribute_work defG lo envs).1 = true
  ∧ (∀ (e : DistStep α) (rest : List (DistStep α)),
      (is_tripped e.shared lo defG none e.now e.nowAfter).1 = true →
      (distribute_work defG lo (e :: rest)).1 = .raisedTripping)
  ∧ (∀ (e : DistStep α) (rest : List (DistStep α)),
      (is_tripped e.shared lo defG none e.now e.nowAfter).1 = false → e.putOk = true →
      (distribute_work defG lo (e :: rest)).1 = .enqueued) := by
  refine ⟨?_, ?_, ?_⟩
  · induction envs generalizing lo with
    | nil => rfl
    | cons e rest ih =>
        simp only [distribute_work]
        cases hcheck : (is_tripped e.shared lo defG none e.now e.nowAfter).1 with
        | true => simp [hcheck, distOk]
        | false =>
            cases hput : e.putOk with
            | true => simp [hcheck, hput, distOk]
            | false =>
                simp only [hcheck, hput, Bool.false_eq_true, if_neg, not_false_iff]
                simpa [distOk] using
                  ih (is_tripped e.shared lo defG none e.now e.nowAfter).2
  · intro e rest ht
    simp [distribute_work, ht]
  · intro e rest ht hput
    simp [distribute_work, ht, hput]

/-- C2 amended witness: on a fresh (untripped) breaker with queue space,
`_distribute_work` enqueues immediately. -/
theorem distribute_work_shape_witness :
    (distribute_work (1/10) (initialLocal 0)
      [({ shared := initialShared ℕ, now := 1, nowAfter := 1, putOk := true } :
          DistStep ℕ)]).1 = .enqueued := by
  have h := distribute_work_shape ℕ (1/10) (initialLocal 0)
    [({ shared := initialShared ℕ, now := 1, nowAfter := 1, putOk := true } :
        DistStep ℕ)]
  refine h.2.2 _ [] ?_ rfl
  simp only [is_tripped, initialLocal, initialShared, Option.getD_none]
  norm_num

/-- C9: on every exit path of the worker process bodies — clean return,
breaker-trip abort, unhandled exception or interrupt in any hook — the
cleanup hook (`_on_acquisition_process_complete` resp.
`_on_work_process_complete`) is invoked exactly once; in a work worker the
executor shutdown is invoked, immediately before the cleanup hook, exactly
when the executor was constructed (setup succeeded); and exceptions raised
inside the guarded cleanup region are logged and swallowed — they change
neither the propagated exception nor the event trace. -/
theorem cleanup_hooks_exhaustive (a : AcqScenario) (w : WorkScenario) :
    (acquisition_process_entry a).events.count AcqEvent.completeHook = 1
  ∧ (work_process_entry w).events.count WorkEvent.completeHook = 1
  ∧ (∀ c, (acquisition_process_entry { a with cleanup := c }).propagated
        = (acquisition_process_entry a).propagated
      ∧ (acquisition_process_entry { a with cleanup := c }).events
        = (acquisition_process_entry a).events)
  ∧ (∀ c sd, (work_process_entry { w with cleanup := c, shutdown := sd }).propagated
        = (work_process_entry w).propagated
      ∧ (work_process_entry { w with cleanup := c, shutdown := sd }).events
        = (work_process_entry w).events)
  ∧ (w.setup = .ok →
      ∃ pre, (work_process_entry w).events
        = pre ++ [WorkEvent.execShutdown, WorkEvent.completeHook])
  ∧ (w.setup ≠ .ok →
      (work_process_entry w).events.count WorkEvent.execShutdown = 0) := by
  obtain ⟨as, aa, ac⟩ := a
  obtain ⟨ws, wl, wsd, wc⟩ := w
  refine ⟨?_, ?_, ?_, ?_, ?_, ?_⟩
  · cases as <;> cases aa <;> rfl
  · cases ws <;> cases wl <;> rfl
  · intro c
    cases as <;> cases aa <;> exact ⟨rfl, rfl⟩
  · intro c sd
    cases ws <;> cases wl <;> exact ⟨rfl, rfl⟩
  · intro hok
    cases ws with
    | ok =>
        cases wl with
        | ok => exact ⟨[WorkEvent.setupHook, WorkEvent.loopRun], rfl⟩
        | tripping =>
            exact ⟨[WorkEvent.setupHook, WorkEvent.loopRun, WorkEvent.tripBreaker], rfl⟩
        | exn =>
            exact ⟨[WorkEvent.setupHook, WorkEvent.loopRun, WorkEvent.tripBreaker], rfl⟩
        | interrupt =>
            exact ⟨[WorkEvent.setupHook, WorkEvent.loopRun, WorkEvent.tripBreaker], rfl⟩
    | tripping => exact absurd hok (by simp)
    | exn => exact absurd hok (by simp)
    | interrupt => exact absurd hok (by simp)
  · intro hne
    cases ws with
    | ok => exact absurd rfl hne
    | tripping => rfl
    | exn => rfl
    | interrupt => rfl

/-- C9 witness: a work worker whose loop dies on an unhandled exception while
the cleanup hook itself raises still runs the cleanup hook exactly once. -/
theorem cleanup_hooks_exhaustive_witness :
    (work_process_entry
      { setup := .ok, loop := .exn, shutdown := .ok, cleanup := .exn }).events.count
      WorkEvent.completeHook = 1 := by
  have h := cleanup_hooks_exhaustive
    { setup := .ok, acquire := .ok, cleanup := .ok }
    { setup := .ok, loop := .exn, shutdown := .ok, cleanup := .exn }
  exact h.2.1

end DAFramework
